import Mathlib

/-!
Shallow embedding of the Wiener-attack repository (src/main.py) and proofs
about its claims.  Python arbitrary-precision integers are modelled by Nat
where all reachable values are nonnegative and by Int where intermediate
values can be negative (inside the attack loop).  Python loops become
well-founded recursive functions; a Python function that can raise on its
modelled domain returns Option.
-/

namespace Wiener

/-- Embedding of get_bit_length from src/main.py: counts the iterations of
the shift-right loop, so 0 maps to 0. -/
def get_bit_length (x : Nat) : Nat :=
  if x = 0 then 0 else get_bit_length (x >>> 1) + 1
  termination_by x
  decreasing_by
    simp only [Nat.shiftRight_succ, Nat.shiftRight_zero]
    exact Nat.div_lt_self (Nat.pos_of_ne_zero (by assumption)) (by omega)

/-- Embedding of the Newton iteration loop inside get_whole_sqrt: the Python
while True loop with state x, returning x once y >= x.  The loop local
y = (x + n floordiv x) floordiv 2 is inlined. -/
def sqrtLoop (n x : Nat) : Nat :=
  if x ≤ (x + n / x) / 2 then x else sqrtLoop n ((x + n / x) / 2)
  termination_by x
  decreasing_by
    simp only [not_le] at *
    assumption

/-- Embedding of get_whole_sqrt from src/main.py.  divmod(bitlen, 2) is the
pair (bitlen / 2, bitlen % 2); the domain Nat models the nonnegative inputs
on which the Python function does not raise. -/
def get_whole_sqrt (n : Nat) : Nat :=
  if n = 0 then 0
  else
    let a := get_bit_length n / 2
    let b := get_bit_length n % 2
    sqrtLoop n (2 ^ (a + b))

/-- Embedding of is_perfect_square from src/main.py.  The Python function
returns either the root t or False; that is modelled by Option Nat (some t
versus none).  The mask n AND 0xF is written as n % 16, and the locals h
and t are inlined. -/
def is_perfect_square (n : Nat) : Option Nat :=
  if n % 16 > 9 then none
  else if n % 16 ≠ 2 ∧ n % 16 ≠ 3 ∧ n % 16 ≠ 5 ∧ n % 16 ≠ 6 ∧
      n % 16 ≠ 7 ∧ n % 16 ≠ 8 then
    if get_whole_sqrt n * get_whole_sqrt n = n then some (get_whole_sqrt n)
    else none
  else none

/-- Embedding of the private helper that converts a finite continued
fraction to a rational.  The Python loop folds the list from its last
element backwards; this is the same computation as structural recursion on
the head. -/
def contfrac_to_rational : List Nat → Nat × Nat
  | [] => (0, 1)
  | [a] => (a, 1)
  | a :: rest =>
    let pq := contfrac_to_rational rest
    (a * pq.1 + pq.2, pq.1)

/-- Embedding of the private convergents helper: the Python loop appends
the rational of the prefix frac[0:i] for i in range(len(frac)), so the
prefix of the full length is not included. -/
def convergents_from_contfrac (frac : List Nat) : List (Nat × Nat) :=
  (List.range frac.length).map (fun i => contfrac_to_rational (frac.take i))

/-- Embedding of the private helper converting a rational x/y to its list
of partial quotients.  The Python local a equal to x floordiv y is inlined
as x / y.  On the modelled domain y is positive, matching the callers; the
measure handles the degenerate y = 0 case of Nat division so the
definition is total. -/
def rational_to_contfrac (x y : Nat) : List Nat :=
  if x / y * y = x then [x / y]
  else x / y :: rational_to_contfrac y (x - x / y * y)
  termination_by (if y = 0 then x + 1 else y)
  decreasing_by
    rename_i hne
    have hmd : x % y + y * (x / y) = x := Nat.mod_add_div x y
    have hcomm : y * (x / y) = x / y * y := Nat.mul_comm _ _
    by_cases hy : y = 0
    · subst hy
      simp only [Nat.div_zero, Nat.zero_mul, Nat.mul_zero, Nat.sub_zero] at *
      have hx : x ≠ 0 := by omega
      simp [hx]
    · have hmod : x - x / y * y = x % y := by omega
      have hlt : x % y < y := Nat.mod_lt _ (Nat.pos_of_ne_zero hy)
      have hz : x % y ≠ 0 := by omega
      rw [hmod]
      simp only [if_neg hy, if_neg hz]
      exact hlt

/-- Embedding of the body of the convergent loop of wiener_attack.  The
arithmetic is over Int, matching Python ints; the Python truthiness test
if t treats the root 0 like False, hence the t not equal 0 conjunct. -/
def wienerStep (e n k d : Nat) : Option Nat :=
  if k ≠ 0 ∧ ((e : Int) * d - 1) % (k : Int) = 0 then
    let phi : Int := ((e : Int) * d - 1) / (k : Int)
    let s : Int := (n : Int) - phi + 1
    let discr : Int := s * s - 4 * (n : Int)
    if 0 ≤ discr then
      match is_perfect_square discr.toNat with
      | some t => if t ≠ 0 ∧ (s + (t : Int)) % 2 = 0 then some d else none
      | none => none
    else none
  else none

/-- Embedding of the for loop of wiener_attack: first convergent whose
check succeeds wins, and falling off the loop returns None. -/
def wienerSearch (e n : Nat) : List (Nat × Nat) → Option Nat
  | [] => none
  | (k, d) :: rest =>
    match wienerStep e n k d with
    | some x => some x
    | none => wienerSearch e n rest

/-- Embedding of wiener_attack from src/main.py. -/
def wiener_attack (e n : Nat) : Option Nat :=
  wienerSearch e n (convergents_from_contfrac (rational_to_contfrac e n))

/-! Correctness of the integer square root. -/

theorem lt_two_pow_bit_length (x : Nat) : x < 2 ^ get_bit_length x := by
  induction x using Nat.strong_induction_on with
  | _ x ih =>
    rw [get_bit_length]
    by_cases hx : x = 0
    · simp [hx]
    · simp only [hx, if_false]
      have h2 : x >>> 1 = x / 2 := by
        simp [Nat.shiftRight_succ, Nat.shiftRight_zero]
      have hlt : x / 2 < x := Nat.div_lt_self (Nat.pos_of_ne_zero hx) (by omega)
      have hih := ih (x >>> 1) (by rw [h2]; exact hlt)
      rw [pow_succ]
      omega

theorem sqrt_le_newton (n x : Nat) (hx : 0 < x) :
    Nat.sqrt n ≤ (x + n / x) / 2 := by
  have hss : Nat.sqrt n * Nat.sqrt n ≤ n := Nat.sqrt_le n
  have h1 : 2 * Nat.sqrt n ≤ x + n / x := by
    by_cases hsx : 2 * Nat.sqrt n ≤ x
    · exact le_trans hsx (Nat.le_add_right _ _)
    · have hxs : x ≤ 2 * Nat.sqrt n := by omega
      have h2 : (2 * Nat.sqrt n - x) * x ≤ Nat.sqrt n * Nat.sqrt n := by
        zify [hxs]
        nlinarith [sq_nonneg ((Nat.sqrt n : Int) - (x : Int))]
      have key : (2 * Nat.sqrt n - x) * x ≤ n := le_trans h2 hss
      have := (Nat.le_div_iff_mul_le hx).mpr key
      omega
  have := Nat.div_le_div_right (c := 2) h1
  omega

theorem sqrtLoop_correct (n : Nat) (hn : 0 < n) :
    ∀ x, Nat.sqrt n ≤ x → sqrtLoop n x = Nat.sqrt n := by
  intro x
  induction x using Nat.strong_induction_on with
  | _ x ih =>
    intro hsx
    have hx : 0 < x := lt_of_lt_of_le (Nat.sqrt_pos.mpr hn) hsx
    rw [sqrtLoop]
    by_cases hxy : x ≤ (x + n / x) / 2
    · simp only [if_pos hxy]
      have h2x : x * 2 ≤ x + n / x := (Nat.le_div_iff_mul_le (by omega)).mp hxy
      have hxd : x ≤ n / x := by omega
      have hxx : x * x ≤ n := (Nat.le_div_iff_mul_le hx).mp hxd
      have := Nat.le_sqrt.mpr hxx
      omega
    · simp only [if_neg hxy]
      exact ih ((x + n / x) / 2) (by omega) (sqrt_le_newton n x hx)

theorem get_whole_sqrt_eq_sqrt (n : Nat) : get_whole_sqrt n = Nat.sqrt n := by
  rw [get_whole_sqrt]
  by_cases hn : n = 0
  · simp [hn]
  · simp only [hn, if_false]
    have hbl : n < 2 ^ get_bit_length n := lt_two_pow_bit_length n
    have hble : get_bit_length n ≤
        2 * (get_bit_length n / 2 + get_bit_length n % 2) := by omega
    have hseed : n < 2 ^ (get_bit_length n / 2 + get_bit_length n % 2) *
        2 ^ (get_bit_length n / 2 + get_bit_length n % 2) := by
      calc n < 2 ^ get_bit_length n := hbl
        _ ≤ 2 ^ (2 * (get_bit_length n / 2 + get_bit_length n % 2)) :=
          Nat.pow_le_pow_right (by omega) hble
        _ = _ := by rw [two_mul, pow_add]
    have hs := le_of_lt (Nat.sqrt_lt.mpr hseed)
    exact sqrtLoop_correct n (Nat.pos_of_ne_zero hn) _ hs

/-- C3: get_whole_sqrt returns the integer square root exactly: the result
r satisfies r * r <= x < (r + 1) * (r + 1) for every nonnegative integer x,
and get_whole_sqrt 0 = 0. -/
theorem C3_get_whole_sqrt_isqrt (x : Nat) :
    get_whole_sqrt x * get_whole_sqrt x ≤ x ∧
    x < (get_whole_sqrt x + 1) * (get_whole_sqrt x + 1) ∧
    get_whole_sqrt 0 = 0 := by
  rw [get_whole_sqrt_eq_sqrt]
  exact ⟨Nat.sqrt_le x, Nat.lt_succ_sqrt x, rfl⟩

/-! The perfect square test. -/

theorem sq_mod_sixteen (t : Nat) :
    t * t % 16 = 0 ∨ t * t % 16 = 1 ∨ t * t % 16 = 4 ∨ t * t % 16 = 9 := by
  have hm : t % 16 < 16 := Nat.mod_lt _ (by omega)
  rw [Nat.mul_mod]
  generalize t % 16 = m at hm
  interval_cases m <;> decide

theorem is_perfect_square_eq (n : Nat) :
    is_perfect_square n =
      if Nat.sqrt n * Nat.sqrt n = n then some (Nat.sqrt n) else none := by
  unfold is_perfect_square
  rw [get_whole_sqrt_eq_sqrt]
  by_cases h1 : n % 16 > 9
  · rw [if_pos h1, if_neg]
    intro he
    have hsq := sq_mod_sixteen (Nat.sqrt n)
    rw [he] at hsq
    omega
  · rw [if_neg h1]
    by_cases h2 : n % 16 ≠ 2 ∧ n % 16 ≠ 3 ∧ n % 16 ≠ 5 ∧ n % 16 ≠ 6 ∧
        n % 16 ≠ 7 ∧ n % 16 ≠ 8
    · rw [if_pos h2]
    · rw [if_neg h2, if_neg]
      intro he
      have hsq := sq_mod_sixteen (Nat.sqrt n)
      rw [he] at hsq
      push_neg at h2
      omega

/-- C4: is_perfect_square applied to a square k * k reports the root k
(modelled as some k), and applied to any nonnegative integer that is not a
perfect square it reports failure (modelled as none), whether the rejection
comes from the low-four-bit filter or from the root verification. -/
theorem C4_is_perfect_square :
    (∀ k : Nat, is_perfect_square (k * k) = some k) ∧
    (∀ n : Nat, (¬ ∃ t, t * t = n) → is_perfect_square n = none) := by
  constructor
  · intro k
    rw [is_perfect_square_eq, Nat.sqrt_eq]
    simp
  · intro n hn
    rw [is_perfect_square_eq, if_neg]
    intro he
    exact hn ⟨Nat.sqrt n, he⟩

/-- Witness for C4 at k = 3 and at the non-square 5. -/
theorem C4_witness :
    is_perfect_square (3 * 3) = some 3 ∧ is_perfect_square 5 = none :=
  ⟨C4_is_perfect_square.1 3,
    C4_is_perfect_square.2 5 (Nat.not_exists_sq (m := 2) (by norm_num) (by norm_num))⟩

/-! The continued fraction round trip. -/

theorem ctr_nil : contfrac_to_rational [] = (0, 1) := rfl

theorem ctr_singleton (a : Nat) : contfrac_to_rational [a] = (a, 1) := rfl

theorem ctr_cons (a b : Nat) (rest : List Nat) :
    contfrac_to_rational (a :: b :: rest) =
      (a * (contfrac_to_rational (b :: rest)).1 +
        (contfrac_to_rational (b :: rest)).2,
       (contfrac_to_rational (b :: rest)).1) := rfl

theorem rtc_ne_nil (x y : Nat) : rational_to_contfrac x y ≠ [] := by
  rw [rational_to_contfrac]
  split <;> simp

theorem rtc_roundtrip : ∀ y, 0 < y → ∀ x,
    (contfrac_to_rational (rational_to_contfrac x y)).1 * y =
      (contfrac_to_rational (rational_to_contfrac x y)).2 * x ∧
    Nat.gcd (contfrac_to_rational (rational_to_contfrac x y)).1
      (contfrac_to_rational (rational_to_contfrac x y)).2 = 1 ∧
    0 < (contfrac_to_rational (rational_to_contfrac x y)).2 ∧
    (0 < x → 0 < (contfrac_to_rational (rational_to_contfrac x y)).1) := by
  intro y
  induction y using Nat.strong_induction_on with
  | _ y ih =>
    intro hy x
    rw [rational_to_contfrac]
    by_cases hstop : x / y * y = x
    · simp only [if_pos hstop, ctr_singleton]
      refine ⟨by rw [one_mul]; exact hstop, Nat.gcd_one_right _, Nat.one_pos, ?_⟩
      intro hx
      rcases Nat.eq_zero_or_pos (x / y) with h0 | h0
      · rw [h0, Nat.zero_mul] at hstop
        omega
      · exact h0
    · simp only [if_neg hstop]
      have hmd : x % y + y * (x / y) = x := Nat.mod_add_div x y
      have hcomm : y * (x / y) = x / y * y := Nat.mul_comm _ _
      have hr : x - x / y * y = x % y := by omega
      have hrlt : x % y < y := Nat.mod_lt _ hy
      have hrpos : 0 < x % y := by omega
      rw [hr]
      obtain ⟨b, L, hL⟩ : ∃ b L, rational_to_contfrac y (x % y) = b :: L := by
        cases hc : rational_to_contfrac y (x % y) with
        | nil => exact absurd hc (rtc_ne_nil _ _)
        | cons b L => exact ⟨b, L, rfl⟩
      have IH := ih (x % y) hrlt hrpos y
      rw [hL] at IH ⊢
      rw [ctr_cons]
      obtain ⟨ih1, ih2, ih3, ih4⟩ := IH
      have hp : 0 < (contfrac_to_rational (b :: L)).1 := ih4 hy
      refine ⟨?_, ?_, hp, ?_⟩
      · have hx : x = x / y * y + x % y := by omega
        calc (x / y * (contfrac_to_rational (b :: L)).1 +
              (contfrac_to_rational (b :: L)).2) * y
            = x / y * y * (contfrac_to_rational (b :: L)).1 +
              (contfrac_to_rational (b :: L)).2 * y := by ring
          _ = x / y * y * (contfrac_to_rational (b :: L)).1 +
              (contfrac_to_rational (b :: L)).1 * (x % y) := by rw [ih1]
          _ = (contfrac_to_rational (b :: L)).1 * (x / y * y + x % y) := by ring
          _ = (contfrac_to_rational (b :: L)).1 * x := by rw [← hx]
      · show Nat.gcd (x / y * (contfrac_to_rational (b :: L)).1 +
            (contfrac_to_rational (b :: L)).2) (contfrac_to_rational (b :: L)).1 = 1
        rw [Nat.gcd_comm,
          Nat.add_comm (x / y * (contfrac_to_rational (b :: L)).1)
            (contfrac_to_rational (b :: L)).2,
          Nat.gcd_add_mul_right_right]
        exact ih2
      · show 0 < x → 0 < x / y * (contfrac_to_rational (b :: L)).1 +
            (contfrac_to_rational (b :: L)).2
        intro _
        omega

/-- C5: converting x over y to its full partial quotient sequence and
evaluating that sequence back to a rational reproduces x over y exactly in
reduced form: the result (p, q) satisfies p * y = q * x and gcd p q = 1,
for all positive integers x and y. -/
theorem C5_roundtrip (x y : Nat) (hx : 0 < x) (hy : 0 < y) :
    (contfrac_to_rational (rational_to_contfrac x y)).1 * y =
      (contfrac_to_rational (rational_to_contfrac x y)).2 * x ∧
    Nat.gcd (contfrac_to_rational (rational_to_contfrac x y)).1
      (contfrac_to_rational (rational_to_contfrac x y)).2 = 1 :=
  ⟨(rtc_roundtrip y hy x).1, (rtc_roundtrip y hy x).2.1⟩

/-- Witness for C5 at x = 10, y = 4, whose reduced form is 5 over 2. -/
theorem C5_witness :
    0 < 10 ∧ 0 < 4 ∧
    ((contfrac_to_rational (rational_to_contfrac 10 4)).1 * 4 =
      (contfrac_to_rational (rational_to_contfrac 10 4)).2 * 10 ∧
    Nat.gcd (contfrac_to_rational (rational_to_contfrac 10 4)).1
      (contfrac_to_rational (rational_to_contfrac 10 4)).2 = 1) :=
  ⟨by norm_num, by norm_num, C5_roundtrip 10 4 (by norm_num) (by norm_num)⟩

/-! The convergent list.  The Python loop ranges over range(len(frac)), so
the prefix of the full length is omitted: the list has len(frac) entries,
not len(frac) + 1. -/

/-- C6 counterexample: on the partial quotient list with one element the
code produces a single convergent, not the two entries the claim
requires. -/
theorem C6_counterexample :
    convergents_from_contfrac [2] = [(0, 1)] ∧
    ([2] : List Nat).length + 1 = 2 ∧
    (convergents_from_contfrac [2]).length ≠ ([2] : List Nat).length + 1 := by
  refine ⟨rfl, rfl, ?_⟩
  decide

/-- C6 amended: convergents_from_contfrac returns one convergent per prefix
length i from 0 to len(frac) - 1 (len(frac) entries in total, the full
prefix excluded); entry i is the rational value of the continued fraction
built from frac[0:i], and the empty prefix yields (0, 1). -/
theorem C6_convergents_prefixes (frac : List Nat) :
    (convergents_from_contfrac frac).length = frac.length ∧
    ∀ i, i < frac.length →
      (convergents_from_contfrac frac)[i]? =
        some (contfrac_to_rational (frac.take i)) := by
  constructor
  · simp [convergents_from_contfrac]
  · intro i hi
    simp [convergents_from_contfrac, List.getElem?_map, List.getElem?_range hi]

/-- Witness for C6 at the list [2, 3] and prefix length 1. -/
theorem C6_witness :
    (convergents_from_contfrac [2, 3]).length = 2 ∧
    (1 < ([2, 3] : List Nat).length ∧
      (convergents_from_contfrac [2, 3])[1]? =
        some (contfrac_to_rational (([2, 3] : List Nat).take 1))) :=
  ⟨(C6_convergents_prefixes [2, 3]).1,
    by norm_num, (C6_convergents_prefixes [2, 3]).2 1 (by norm_num)⟩

/-! The PKCS 1.5 padding check and message extraction.  Python bytes are
modelled as lists of Fin 256; the struct.pack comparisons against the
byte 0x00 and 0x02 literals become equality tests on Fin 256. -/

abbrev Byte := Fin 256

/-- Embedding of is_valid_pkcs_1_5_signature from src/main.py.  Reading
bytes_array[0] and bytes_array[1] raises IndexError on blocks shorter than
two bytes, modelled by none; otherwise the result is the Python boolean:
header 0x00 0x02 and some zero byte at an index at least 2 (the loop with
early return True is the any over the tail). -/
def is_valid_pkcs_1_5_signature (block : List Byte) : Option Bool :=
  match block with
  | b0 :: b1 :: rest =>
    some (if b0 = 0 ∧ b1 = 2 then rest.any (fun b => decide (b = 0)) else false)
  | _ => none

/-- Embedding of the scanning loop of extract_message_pkcs_1_5: Python
enumerates bytes_array[2:] with positions starting at 3, so on the first
zero byte at actual index i the recorded position is i + 1; when no zero is
found the initial value 0 survives. -/
def firstZeroEnd : List Byte → Nat → Nat
  | [], _ => 0
  | b :: rest, pos => if b = 0 then pos else firstZeroEnd rest (pos + 1)

/-- Embedding of extract_message_pkcs_1_5 from src/main.py: the final slice
bytes_array[end_byte_pos:]. -/
def extract_message_pkcs_1_5 (block : List Byte) : List Byte :=
  block.drop (firstZeroEnd (block.drop 2) 3)

theorem exists_zero_shift (b0 b1 : Byte) (rest : List Byte) :
    (∃ i, 2 ≤ i ∧ (b0 :: b1 :: rest)[i]? = some 0) ↔
      ∃ j : Nat, rest[j]? = some 0 := by
  constructor
  · rintro ⟨i, hi, hget⟩
    obtain ⟨j, rfl⟩ : ∃ j, i = j + 2 := ⟨i - 2, by omega⟩
    exact ⟨j, by simpa using hget⟩
  · rintro ⟨j, hj⟩
    exact ⟨j + 2, by omega, by simpa using hj⟩

theorem any_zero_iff (l : List Byte) :
    l.any (fun b => decide (b = 0)) = true ↔ ∃ j : Nat, l[j]? = some 0 := by
  rw [List.any_eq_true]
  constructor
  · rintro ⟨b, hb, hbe⟩
    have hb0 : b = 0 := by simpa using hbe
    subst hb0
    exact List.mem_iff_getElem?.mp hb
  · rintro ⟨j, hj⟩
    exact ⟨0, List.mem_iff_getElem?.mpr ⟨j, hj⟩, by simp⟩

/-- C7: on blocks of length at least two the validity check returns a
boolean, which is true exactly when the block starts with the bytes 0x00
and 0x02 and some byte at an index at least 2 is 0x00; on the concrete
block 0x00 0x02 0x05 0x06 it returns false. -/
theorem C7_is_valid_signature_iff :
    (∀ block : List Byte, 2 ≤ block.length →
      (∃ v, is_valid_pkcs_1_5_signature block = some v) ∧
      (is_valid_pkcs_1_5_signature block = some true ↔
        block[0]? = some 0 ∧ block[1]? = some 2 ∧
          ∃ i, 2 ≤ i ∧ block[i]? = some 0)) ∧
    is_valid_pkcs_1_5_signature [0, 2, 5, 6] = some false := by
  constructor
  · intro block hlen
    match block with
    | [] => simp at hlen
    | [b0] => simp at hlen
    | b0 :: b1 :: rest =>
      refine ⟨⟨_, rfl⟩, ?_⟩
      rw [is_valid_pkcs_1_5_signature]
      simp only [List.getElem?_cons_zero, List.getElem?_cons_succ,
        Option.some.injEq, exists_zero_shift]
      by_cases hh : b0 = 0 ∧ b1 = 2
      · rw [if_pos hh]
        rw [any_zero_iff]
        constructor
        · intro h
          exact ⟨hh.1, hh.2, h⟩
        · intro h
          exact h.2.2
      · rw [if_neg hh]
        constructor
        · intro h
          simp at h
        · intro h
          exact absurd ⟨h.1, h.2.1⟩ hh
  · decide

/-- Witness for C7 on the concrete valid block 0x00 0x02 0x05 0x00 0x41
0x42. -/
theorem C7_witness :
    (∃ v, is_valid_pkcs_1_5_signature [0, 2, 5, 0, 0x41, 0x42] = some v) ∧
    (is_valid_pkcs_1_5_signature [0, 2, 5, 0, 0x41, 0x42] = some true ↔
      ([0, 2, 5, 0, 0x41, 0x42] : List Byte)[0]? = some 0 ∧
      ([0, 2, 5, 0, 0x41, 0x42] : List Byte)[1]? = some 2 ∧
        ∃ i, 2 ≤ i ∧ ([0, 2, 5, 0, 0x41, 0x42] : List Byte)[i]? = some 0) :=
  C7_is_valid_signature_iff.1 [0, 2, 5, 0, 0x41, 0x42] (by norm_num)

theorem firstZeroEnd_of_first (l : List Byte) :
    ∀ (j pos : Nat), l[j]? = some 0 → (∀ k, k < j → l[k]? ≠ some 0) →
      firstZeroEnd l pos = pos + j := by
  induction l with
  | nil =>
    intro j pos hget _
    simp at hget
  | cons b rest ih =>
    intro j pos hget hmin
    rw [firstZeroEnd]
    by_cases hb : b = 0
    · have hj : j = 0 := by
        by_contra hj0
        exact hmin 0 (by omega) (by simpa using hb)
      subst hj
      rw [if_pos hb]
      omega
    · have hj : j ≠ 0 := by
        intro h0
        subst h0
        simp only [List.getElem?_cons_zero, Option.some.injEq] at hget
        exact hb hget
      obtain ⟨j', rfl⟩ : ∃ j', j = j' + 1 := ⟨j - 1, by omega⟩
      rw [if_neg hb]
      have hrec := ih j' (pos + 1) (by simpa using hget)
        (fun k hk => by simpa using hmin (k + 1) (by omega))
      omega

theorem firstZeroEnd_of_none (l : List Byte) :
    ∀ pos : Nat, (∀ k : Nat, l[k]? ≠ some 0) → firstZeroEnd l pos = 0 := by
  induction l with
  | nil =>
    intro pos _
    rfl
  | cons b rest ih =>
    intro pos hno
    rw [firstZeroEnd]
    have hb : ¬ b = 0 := by
      intro h0
      exact hno 0 (by simpa using h0)
    rw [if_neg hb]
    exact ih (pos + 1) (fun k => by simpa using hno (k + 1))

/-- C8: extract_message_pkcs_1_5 returns the part of the block strictly
after the first zero byte at an index at least 2 when one exists, and the
whole block unchanged when none exists; on the concrete block 0x00 0x02
0x05 0x00 0x41 0x42 it returns 0x41 0x42. -/
theorem C8_extract_message :
    (∀ (block : List Byte) (i : Nat), 2 ≤ i → block[i]? = some 0 →
      (∀ j, 2 ≤ j → j < i → block[j]? ≠ some 0) →
      extract_message_pkcs_1_5 block = block.drop (i + 1)) ∧
    (∀ block : List Byte, (∀ i : Nat, 2 ≤ i → block[i]? ≠ some 0) →
      extract_message_pkcs_1_5 block = block) ∧
    extract_message_pkcs_1_5 [0, 2, 5, 0, 0x41, 0x42] = [0x41, 0x42] := by
  refine ⟨?_, ?_, rfl⟩
  · intro block i hi hget hmin
    rw [extract_message_pkcs_1_5]
    have hfz : firstZeroEnd (block.drop 2) 3 = 3 + (i - 2) := by
      apply firstZeroEnd_of_first
      · rw [List.getElem?_drop]
        have : 2 + (i - 2) = i := by omega
        rw [this]
        exact hget
      · intro k hk
        rw [List.getElem?_drop]
        exact hmin (2 + k) (by omega) (by omega)
    rw [hfz]
    have : 3 + (i - 2) = i + 1 := by omega
    rw [this]
  · intro block hno
    rw [extract_message_pkcs_1_5]
    have hfz : firstZeroEnd (block.drop 2) 3 = 0 := by
      apply firstZeroEnd_of_none
      intro k
      rw [List.getElem?_drop]
      exact hno (2 + k) (by omega)
    rw [hfz]
    rfl

/-- Witness for C8 on a block whose first zero after the header is at
index 3 and on a block without any zero after the header. -/
theorem C8_witness :
    extract_message_pkcs_1_5 [0, 2, 5, 0, 7, 8] =
      ([0, 2, 5, 0, 7, 8] : List Byte).drop 4 ∧
    extract_message_pkcs_1_5 [0, 2, 5, 6] = [0, 2, 5, 6] :=
  ⟨C8_extract_message.1 [0, 2, 5, 0, 7, 8] 3 (by norm_num) (by decide)
      (fun j h2 hj => by
        have : j = 2 := by omega
        subst this
        decide),
    C8_extract_message.2.1 [0, 2, 5, 6]
      (fun i h2 => by
        match i, h2 with
        | 2, _ => decide
        | 3, _ => decide
        | (n + 4), _ => simp)⟩

/-- C10: a block validated by is_valid_pkcs_1_5_signature is never handed
the whole-input fallback: the extracted message is a suffix starting at an
index at least 3, hence at least 3 bytes shorter than the block. -/
theorem C10_valid_extract_proper (block : List Byte)
    (hlen : 2 ≤ block.length)
    (hv : is_valid_pkcs_1_5_signature block = some true) :
    ∃ j, 3 ≤ j ∧ j ≤ block.length ∧
      extract_message_pkcs_1_5 block = block.drop j ∧
      (extract_message_pkcs_1_5 block).length + 3 ≤ block.length := by
  match block with
  | [] => simp at hlen
  | [b0] => simp at hlen
  | b0 :: b1 :: rest =>
    rw [is_valid_pkcs_1_5_signature] at hv
    simp only [Option.some.injEq] at hv
    by_cases hh : b0 = 0 ∧ b1 = 2
    · rw [if_pos hh] at hv
      have hex : ∃ j : Nat, rest[j]? = some 0 := (any_zero_iff rest).mp hv
      have hexm : ∃ j : Nat, j < rest.length ∧ rest[j]? = some 0 := by
        obtain ⟨j, hj⟩ := hex
        refine ⟨j, ?_, hj⟩
        by_contra hge
        rw [List.getElem?_eq_none (by omega)] at hj
        exact Option.noConfusion hj
      classical
      obtain ⟨j, hjlt, hjget, hjmin⟩ :
          ∃ j, j < rest.length ∧ rest[j]? = some 0 ∧
            ∀ k, k < j → rest[k]? ≠ some 0 := by
        obtain ⟨j0, hj0lt, hj0⟩ := hexm
        induction j0 using Nat.strong_induction_on with
        | _ j0 ih =>
          by_cases hmin : ∀ k, k < j0 → rest[k]? ≠ some 0
          · exact ⟨j0, hj0lt, hj0, hmin⟩
          · push_neg at hmin
            obtain ⟨k, hk, hkget⟩ := hmin
            have hklt : k < rest.length := by omega
            exact ih k hk hklt hkget
      have hext := C8_extract_message.1 (b0 :: b1 :: rest) (j + 2) (by omega)
        (by simpa using hjget)
        (by
          intro m h2 hm
          obtain ⟨k, rfl⟩ : ∃ k, m = k + 2 := ⟨m - 2, by omega⟩
          simpa using hjmin k (by omega))
      refine ⟨j + 3, by omega, ?_, ?_, ?_⟩
      · simp only [List.length_cons]
        omega
      · rw [hext]
      · rw [hext, List.length_drop]
        simp only [List.length_cons]
        omega
    · rw [if_neg hh] at hv
      exact absurd hv (by simp)

/-- Witness for C10 on the concrete valid block 0x00 0x02 0x05 0x00 0x41
0x42. -/
theorem C10_witness :
    ∃ j, 3 ≤ j ∧ j ≤ ([0, 2, 5, 0, 0x41, 0x42] : List Byte).length ∧
      extract_message_pkcs_1_5 [0, 2, 5, 0, 0x41, 0x42] =
        ([0, 2, 5, 0, 0x41, 0x42] : List Byte).drop j ∧
      (extract_message_pkcs_1_5 [0, 2, 5, 0, 0x41, 0x42]).length + 3 ≤
        ([0, 2, 5, 0, 0x41, 0x42] : List Byte).length :=
  C10_valid_extract_proper [0, 2, 5, 0, 0x41, 0x42] (by norm_num) (by decide)

/-! Termination of the two loops, made explicit through fuel-indexed
variants that return none when the step budget runs out. -/

/-- Step-counting variant of the Newton loop of get_whole_sqrt. -/
def sqrtLoopFuel : Nat → Nat → Nat → Option Nat
  | 0, _, _ => none
  | fuel + 1, n, x =>
    if x ≤ (x + n / x) / 2 then some x
    else sqrtLoopFuel fuel n ((x + n / x) / 2)

/-- Step-counting variant of the Euclidean loop of the partial quotient
conversion. -/
def rtcFuel : Nat → Nat → Nat → Option (List Nat)
  | 0, _, _ => none
  | fuel + 1, x, y =>
    if x / y * y = x then some [x / y]
    else
      match rtcFuel fuel y (x - x / y * y) with
      | some l => some (x / y :: l)
      | none => none

theorem sqrtLoopFuel_correct :
    ∀ fuel n x : Nat, x < fuel → sqrtLoopFuel fuel n x = some (sqrtLoop n x) := by
  intro fuel
  induction fuel with
  | zero =>
    intro n x hx
    omega
  | succ f ih =>
    intro n x hx
    rw [sqrtLoopFuel, sqrtLoop]
    by_cases hxy : x ≤ (x + n / x) / 2
    · rw [if_pos hxy, if_pos hxy]
    · rw [if_neg hxy, if_neg hxy]
      exact ih n ((x + n / x) / 2) (by omega)

theorem rtcFuel_correct :
    ∀ fuel x y : Nat, 0 < y → y ≤ fuel →
      rtcFuel fuel x y = some (rational_to_contfrac x y) := by
  intro fuel
  induction fuel with
  | zero =>
    intro x y hy hf
    omega
  | succ f ih =>
    intro x y hy hf
    rw [rtcFuel, rational_to_contfrac]
    by_cases hstop : x / y * y = x
    · rw [if_pos hstop, if_pos hstop]
    · rw [if_neg hstop, if_neg hstop]
      have hmd : x % y + y * (x / y) = x := Nat.mod_add_div x y
      have hcomm : y * (x / y) = x / y * y := Nat.mul_comm _ _
      have hr : x - x / y * y = x % y := by omega
      have hrpos : 0 < x % y := by omega
      have hrlt : x % y < y := Nat.mod_lt _ hy
      rw [hr, ih y (x % y) hrpos (by omega)]

/-- C9: both core loops terminate on their valid domains with an explicit
step bound: the Newton loop of get_whole_sqrt finishes within x + 1 steps
from any seed x for every nonnegative n, and the Euclidean loop of
rational_to_contfrac finishes within y steps for every nonnegative x and
positive y, agreeing with the total Lean functions they unfold to. -/
theorem C9_loops_terminate :
    (∀ n x : Nat, sqrtLoopFuel (x + 1) n x = some (sqrtLoop n x)) ∧
    (∀ x y : Nat, 0 < y → rtcFuel y x y = some (rational_to_contfrac x y)) :=
  ⟨fun n x => sqrtLoopFuel_correct (x + 1) n x (by omega),
   fun x y hy => rtcFuel_correct y x y hy le_rfl⟩

/-- Witness for C9: the Newton loop for n = 10 seeded at 3 and the
Euclidean loop at 10 over 4. -/
theorem C9_witness :
    sqrtLoopFuel 4 10 3 = some (sqrtLoop 10 3) ∧
    (0 < 4 ∧ rtcFuel 4 10 4 = some (rational_to_contfrac 10 4)) :=
  ⟨C9_loops_terminate.1 10 3, by norm_num, C9_loops_terminate.2 10 4 (by norm_num)⟩

/-! The Wiener attack loop against the claim that describes it.  The claim
is modelled by a reference search over all convergents of e over n (prefix
lengths 0 through len inclusive), with the success condition written from
the claim text; the code is then compared with it. -/

/-- Modelled from the claim: the quantity s = n - (e*d - 1)/k + 1 of the
success condition. -/
def claimS (e n k d : Nat) : Int :=
  (n : Int) - ((e : Int) * d - 1) / (k : Int) + 1

/-- Modelled from the claim: the discriminant s*s - 4*n of the success
condition. -/
def claimDiscr (e n k d : Nat) : Int :=
  claimS e n k d * claimS e n k d - 4 * (n : Int)

/-- Modelled from the claim: the candidate nonnegative square root of the
discriminant. -/
def claimRoot (e n k d : Nat) : Nat :=
  Nat.sqrt (claimDiscr e n k d).toNat

/-- Modelled from the claim: the success condition on a convergent (k, d).
With nz = false this is the condition exactly as the claim states it; with
nz = true the root of the discriminant is additionally required to be
nonzero, which is the amendment the code forces. -/
def claimCond (nz : Bool) (e n k d : Nat) : Prop :=
  k ≠ 0 ∧ ((e : Int) * d - 1) % (k : Int) = 0 ∧
  0 ≤ claimDiscr e n k d ∧
  claimRoot e n k d * claimRoot e n k d = (claimDiscr e n k d).toNat ∧
  (nz = true → claimRoot e n k d ≠ 0) ∧
  (claimS e n k d + (claimRoot e n k d : Int)) % 2 = 0

instance claimCondDecidable (nz : Bool) (e n k d : Nat) :
    Decidable (claimCond nz e n k d) := by
  unfold claimCond
  infer_instance

/-- Modelled from the claim: all convergents of e over n, one per prefix
length 0 through the full length inclusive. -/
def allConvergents (e n : Nat) : List (Nat × Nat) :=
  (List.range ((rational_to_contfrac e n).length + 1)).map
    (fun i => contfrac_to_rational ((rational_to_contfrac e n).take i))

/-- Modelled from the claim: try the convergents in increasing order of
index and return the denominator of the first one satisfying the success
condition, nothing when none does. -/
def claimSearch (nz : Bool) (e n : Nat) : Option Nat :=
  (allConvergents e n).findSome?
    (fun kd => if claimCond nz e n kd.1 kd.2 then some kd.2 else none)

theorem wienerStep_eq_claim (e n k d : Nat) :
    wienerStep e n k d = if claimCond true e n k d then some d else none := by
  simp only [wienerStep]
  by_cases h1 : k ≠ 0 ∧ ((e : Int) * d - 1) % (k : Int) = 0
  · rw [if_pos h1]
    have hds : (n : Int) - ((e : Int) * d - 1) / (k : Int) + 1 = claimS e n k d := rfl
    rw [hds]
    have hdd : claimS e n k d * claimS e n k d - 4 * (n : Int) =
        claimDiscr e n k d := rfl
    rw [hdd]
    by_cases h2 : 0 ≤ claimDiscr e n k d
    · rw [if_pos h2, is_perfect_square_eq]
      by_cases h3 : Nat.sqrt (claimDiscr e n k d).toNat *
          Nat.sqrt (claimDiscr e n k d).toNat = (claimDiscr e n k d).toNat
      · rw [if_pos h3]
        show (if Nat.sqrt (claimDiscr e n k d).toNat ≠ 0 ∧
            (claimS e n k d + (Nat.sqrt (claimDiscr e n k d).toNat : Int)) % 2 = 0
          then some d else none) = if claimCond true e n k d then some d else none
        by_cases h4 : Nat.sqrt (claimDiscr e n k d).toNat ≠ 0 ∧
            (claimS e n k d + (Nat.sqrt (claimDiscr e n k d).toNat : Int)) % 2 = 0
        · rw [if_pos h4, if_pos]
          exact ⟨h1.1, h1.2, h2, h3, fun _ => h4.1, h4.2⟩
        · rw [if_neg h4, if_neg]
          intro hc
          exact h4 ⟨hc.2.2.2.2.1 rfl, hc.2.2.2.2.2⟩
      · rw [if_neg h3, if_neg]
        intro hc
        exact h3 hc.2.2.2.1
    · rw [if_neg h2, if_neg]
      intro hc
      exact h2 hc.2.2.1
  · rw [if_neg h1, if_neg]
    intro hc
    exact h1 ⟨hc.1, hc.2.1⟩

theorem claimCond_not_of_cross (e n p q : Nat) (hn : 0 < n)
    (hcross : p * n = q * e) : ¬ claimCond true e n p q := by
  rintro ⟨hk0, hdvd, hdiscr, _hsq, hnz, _hpar⟩
  have hpdvd : (p : Int) ∣ (e : Int) * q - 1 := Int.dvd_of_emod_eq_zero hdvd
  have hpe : (p : Int) * n = (q : Int) * e := by exact_mod_cast hcross
  have hdvd2 : (p : Int) ∣ (e : Int) * q := ⟨(n : Int), by linarith⟩
  have hp1 : (p : Int) ∣ 1 := by
    have := dvd_sub hdvd2 hpdvd
    simpa using this
  have hp : p = 1 := by
    rw [show (1 : Int) = ((1 : Nat) : Int) from rfl, Int.natCast_dvd_natCast] at hp1
    exact Nat.dvd_one.mp hp1
  subst hp
  have hqe : (q : Int) * e = (n : Int) := by
    rw [← hpe]
    ring
  have hs : claimS e n 1 q = 2 := by
    unfold claimS
    rw [Nat.cast_one, Int.ediv_one]
    have : (e : Int) * q = (q : Int) * e := by ring
    rw [this, hqe]
    ring
  have hd : claimDiscr e n 1 q = 4 - 4 * (n : Int) := by
    unfold claimDiscr
    rw [hs]
    ring
  rw [hd] at hdiscr
  have hn1 : n = 1 := by
    have : (n : Int) ≤ 1 := by linarith
    have hn0 : (1 : Int) ≤ (n : Int) := by exact_mod_cast hn
    omega
  have hd0 : claimDiscr e n 1 q = 0 := by
    rw [hd, hn1]
    norm_num
  apply hnz rfl
  unfold claimRoot
  rw [hd0]
  rfl

theorem wienerSearch_eq_findSome (e n : Nat) (l : List (Nat × Nat)) :
    wienerSearch e n l = l.findSome? (fun kd => wienerStep e n kd.1 kd.2) := by
  induction l with
  | nil => rfl
  | cons kd rest ih =>
    obtain ⟨k, d⟩ := kd
    rw [wienerSearch, List.findSome?_cons]
    cases h : wienerStep e n k d with
    | some x => simp only [h]
    | none =>
      simp only [h]
      exact ih

theorem allConvergents_split (e n : Nat) :
    allConvergents e n = convergents_from_contfrac (rational_to_contfrac e n) ++
      [contfrac_to_rational (rational_to_contfrac e n)] := by
  unfold allConvergents convergents_from_contfrac
  rw [List.range_succ, List.map_append]
  simp [List.take_length]

/-- C1 amended: for every nonnegative e and positive n, wiener_attack
tries the convergents of e over n in increasing order of index and returns
the denominator of the first convergent satisfying the claimed conditions
with the root of the discriminant additionally required to be nonzero, and
nothing when no convergent satisfies them. -/
theorem C1_attack_is_first_match (e n : Nat) (hn : 0 < n) :
    wiener_attack e n = claimSearch true e n := by
  unfold wiener_attack claimSearch
  rw [allConvergents_split, List.findSome?_append, wienerSearch_eq_findSome]
  have hpt : (fun kd : Nat × Nat => wienerStep e n kd.1 kd.2) =
      (fun kd : Nat × Nat =>
        if claimCond true e n kd.1 kd.2 then some kd.2 else none) := by
    funext kd
    exact wienerStep_eq_claim e n kd.1 kd.2
  rw [hpt]
  have hlast : List.findSome?
      (fun kd : Nat × Nat =>
        if claimCond true e n kd.1 kd.2 then some kd.2 else none)
      [contfrac_to_rational (rational_to_contfrac e n)] = none := by
    rw [List.findSome?_cons]
    rw [if_neg (claimCond_not_of_cross e n _ _ hn (rtc_roundtrip n hn e).1)]
    rfl
  rw [hlast, Option.or_none]

/-- Witness for the amended C1 at e = 5, n = 9. -/
theorem C1_witness :
    0 < 9 ∧ wiener_attack 5 9 = claimSearch true 5 9 :=
  ⟨by norm_num, C1_attack_is_first_match 5 9 (by norm_num)⟩

/-- C1 counterexample: at e = 5, n = 9 the convergent (1, 1) satisfies
every condition of the claim as stated, with discriminant 0 whose root is
0, so the claimed search returns denominator 1; the code instead skips it,
because the Python truthiness test treats the root 0 like a failure, and
returns nothing. -/
theorem C1_counterexample :
    wiener_attack 5 9 = none ∧ claimSearch false 5 9 = some 1 := by
  have hfrac : rational_to_contfrac 5 9 = [0, 1, 1, 4] := by
    simp [rational_to_contfrac]
  constructor
  · unfold wiener_attack
    rw [hfrac]
    decide
  · unfold claimSearch allConvergents
    rw [hfrac]
    decide

theorem sqrt_19600 : Nat.sqrt 19600 = 140 :=
  (Nat.eq_sqrt.mpr (by norm_num)).symm

theorem frac_toy : rational_to_contfrac 17993 90581 = [0, 5, 29, 4, 1, 3, 2, 4, 3] := by
  simp [rational_to_contfrac]

set_option maxRecDepth 4000 in
theorem convs_toy : convergents_from_contfrac [0, 5, 29, 4, 1, 3, 2, 4, 3] =
    [(0, 1), (0, 1), (1, 5), (29, 146), (117, 589), (146, 735), (555, 2794),
      (1256, 6323), (5579, 28086)] := by
  simp [convergents_from_contfrac, contfrac_to_rational, List.range_succ]

theorem claimCond_toy : claimCond true 17993 90581 1 5 := by
  have hdval : claimDiscr 17993 90581 1 5 = 19600 := by
    norm_num [claimDiscr, claimS]
  have hroot : claimRoot 17993 90581 1 5 = 140 := by
    rw [claimRoot, hdval]
    simpa using sqrt_19600
  refine ⟨by norm_num, by norm_num, by rw [hdval]; norm_num, ?_, ?_, ?_⟩
  · rw [hroot, hdval]
    decide
  · intro _
    rw [hroot]
    norm_num
  · rw [hroot]
    norm_num [claimS]

/-- C2: on the toy vulnerable key n = 90581 = 239 * 379 with e = 17993 the
attack returns exactly d = 5, which is the denominator of a convergent of
17993 over 90581 and satisfies e * d = 1 modulo phi(n) = 89964. -/
theorem C2_toy_key :
    wiener_attack 17993 90581 = some 5 ∧
    (∃ k, (k, 5) ∈ convergents_from_contfrac (rational_to_contfrac 17993 90581)) ∧
    17993 * 5 % 89964 = 1 ∧ 90581 = 239 * 379 ∧ 89964 = 238 * 378 := by
  refine ⟨?_, ⟨1, ?_⟩, by norm_num, by norm_num, by norm_num⟩
  · have h15 : wienerStep 17993 90581 1 5 = some 5 := by
      rw [wienerStep_eq_claim, if_pos claimCond_toy]
    have h01 : wienerStep 17993 90581 0 1 = none := by decide
    unfold wiener_attack
    rw [frac_toy, convs_toy]
    rw [wienerSearch.eq_2, h01]
    show wienerSearch 17993 90581
      [(0, 1), (1, 5), (29, 146), (117, 589), (146, 735), (555, 2794),
        (1256, 6323), (5579, 28086)] = some 5
    rw [wienerSearch.eq_2, h01]
    show wienerSearch 17993 90581
      [(1, 5), (29, 146), (117, 589), (146, 735), (555, 2794),
        (1256, 6323), (5579, 28086)] = some 5
    rw [wienerSearch.eq_2, h15]
  · rw [frac_toy, convs_toy]
    norm_num

end Wiener
